import Mathlib

/-!
# Verification of the ClayCode assembly pipeline specification

Shallow embedding of `ClayCode.builder.assembly` (classes `Builder`, `Sheet`,
`Solvent`) together with proofs of the frozen specification claims.

Numeric conventions: Python floats are modelled as rationals (`ℚ`), Python
ints as `ℤ`/`ℕ`; `round(x, 0)` (banker's rounding) is modelled exactly.
External services (GROMACS solvate/insert-molecules, the numpy random
generator, MDAnalysis selections) are modelled as explicit parameters or,
where the repository code is absent from the sources, from the spec's words.
-/

namespace ClayCodeProof

/-! ## Solvent: height and molecule-count conversion

From `Solvent` in `assembly.py`:
`solv_density = 1000e-27`, `mw_sol = 18`, and MDAnalysis
`constants["N_Avogadro"] = 6.02214129e23`. -/

/-- MDAnalysis `constants["N_Avogadro"]`, as an exact rational. -/
def nAvogadro : ℚ := 602214129 * 10 ^ 15

/-- `Solvent.solv_density = 1000e-27` (g per cubic angstrom scale). -/
def solv_density : ℚ := 1000 / 10 ^ 27

/-- `Solvent.mw_sol = 18`. -/
def mw_sol : ℚ := 18

/-- Python `round(q, 0)`: round half to even (banker's rounding). -/
def pyRound (q : ℚ) : ℤ :=
  if q - ⌊q⌋ < 1 / 2 then ⌊q⌋
  else if 1 / 2 < q - ⌊q⌋ then ⌊q⌋ + 1
  else if ⌊q⌋ % 2 = 0 then ⌊q⌋ else ⌊q⌋ + 1

/-- `Solvent.get_solvent_sheet_height`:
`z_dim = (mw_sol * mols_sol) / (N_Avogadro * x_dim * y_dim * solv_density)`. -/
def get_solvent_sheet_height (xDim yDim : ℚ) (molsSol : ℤ) : ℚ :=
  (mw_sol * molsSol) / (nAvogadro * xDim * yDim * solv_density)

/-- `Solvent.get_sheet_solvent_mols`:
`round((z_dim * N_Avogadro * x_dim * y_dim * solv_density) / mw_sol, 0)`. -/
def get_sheet_solvent_mols (xDim yDim : ℚ) (zDim : ℚ) : ℤ :=
  pyRound ((zDim * nAvogadro * xDim * yDim * solv_density) / mw_sol)

/-! ## Solvent.write: bounded density-retry loop

From `Solvent.write` in `assembly.py`: the loop first aborts with a fatal
error when the accumulated `_z_padding` exceeds 5 angstrom, otherwise runs
one solvation attempt; `check_solvent_nummols` raises exactly when the count
parsed from the solvate report is strictly below `n_mols`, in which case the
padding grows by `_z_padding_increment` and the loop retries.

The external solvate call is abstracted by `report : ℕ → ℕ` giving the
molecule count its report announces on the `k`-th attempt; the padding
accumulated before attempt `k` is `k * increment`.  The `fuel` argument is
an artificial recursion bound: `none` means fuel ran out, `some (.error ())`
models the fatal `Exception`, `some (.ok k)` models a normal return after a
successful attempt `k`. -/

/-- The retry loop of `Solvent.write`, indexed by attempt number `k`. -/
def solventWriteLoop (nMols : ℕ) (report : ℕ → ℕ) (increment : ℚ) :
    ℕ → ℕ → Option (Except Unit ℕ)
  | 0, _ => none
  | fuel + 1, k =>
    if 5 < (k : ℚ) * increment then some (Except.error ())
    else if nMols ≤ report k then some (Except.ok k)
    else solventWriteLoop nMols report increment fuel (k + 1)

/-! ## Builder.add_il_ions: insertion-count validation

From `Builder.add_il_ions` in `assembly.py`: for each `(ion, n_ions)` entry
of `args.n_il_ions` with `n_ions != 0`, the insertion service is invoked and
the count parsed from its report (`check_insert_numbers`) is compared with
`n_ions`; a `ValueError` aborts the loop when they differ.  The external
insert-molecules call and report parsing are abstracted by
`insert : String → ℕ → ℕ`, the placed count for a requested species and
count. -/

/-- The per-species insertion loop of `Builder.add_il_ions`. -/
def add_il_ions (insert : String → ℕ → ℕ) :
    List (String × ℕ) → Except String Unit
  | [] => Except.ok ()
  | (ion, nIons) :: rest =>
    if nIons ≠ 0 then
      if insert ion nIons ≠ nIons then
        Except.error "Number of inserted molecules does not match target number!"
      else add_il_ions insert rest
    else add_il_ions insert rest

/-! ## Sheet.n_sheet / Sheet.write_gro: seeded-shuffle determinism

From `Sheet` in `assembly.py`: the `n_sheet` setter unconditionally reseeds
`self.__random = np.random.default_rng(n_sheet)` whenever an integer index
is assigned (and clears both fields otherwise); `write_gro` then draws two
successive shuffles of `uc_array` from that generator (one for atom
selection, one for the position-shift computation).  The numpy generator is
abstracted: `R` is its (deterministic) state type, `init` the seeding
function and `step` one shuffle draw returning the shuffled list and the
advanced state. -/

/-- The `(n_sheet, random generator)` state of a `Sheet`. -/
structure SheetRngState (R : Type) where
  nSheet : Option ℤ
  rng : Option R

/-- The `Sheet.n_sheet` setter: an integer index overwrites the stored index
and reseeds the generator from that index; anything else clears both. -/
def set_n_sheet {R : Type} (init : ℤ → R) (_s : SheetRngState R)
    (n : Option ℤ) : SheetRngState R :=
  match n with
  | some i => { nSheet := some i, rng := some (init i) }
  | none => { nSheet := none, rng := none }

/-- The two successive seeded shuffles of `uc_array` drawn by
`Sheet.write_gro` (`none` models the `AttributeError` raised by
`random_generator` when no sheet number is set). -/
def write_gro_shuffles {R : Type} (step : R → List ℤ → List ℤ × R)
    (ucArr : List ℤ) (s : SheetRngState R) : Option (List ℤ × List ℤ) :=
  match s.rng with
  | none => none
  | some r =>
    let first := step r ucArr
    let second := step first.2 ucArr
    some (first.1, second.1)

/-! ## Builder.get_filename: canonical filename derivation

From `Builder.get_filename` in `assembly.py`.  The temporary directory name
is passed in as `tmpdir`. -/

/-- Python `str.strip(".")`: remove leading and trailing dot characters. -/
def stripDots (s : String) : String :=
  String.mk
    (((s.data.dropWhile (fun c => c == '.')).reverse.dropWhile
        (fun c => c == '.')).reverse)

/-- `arg_list` of `Builder.get_filename`: the known modifiers `"solv"` and
`"ions"` that occur among the requested ones, in that fixed order. -/
def known_modifier_list (solvIonArgs : List String) : List String :=
  ["solv", "ions"].filter (fun s => decide (s ∈ solvIonArgs))

/-- `sorted(other_args)` of `Builder.get_filename`: the distinct requested
modifiers that are not known ones, in sorted order. -/
def other_modifier_list (solvIonArgs : List String) : List String :=
  List.insertionSort (fun a b => a ≤ b)
    ((solvIonArgs.filter
        (fun s => decide (s ∉ known_modifier_list solvIonArgs))).dedup)

/-- The full normalized modifier list of `Builder.get_filename`. -/
def modifier_arg_list (solvIonArgs : List String) : List String :=
  known_modifier_list solvIonArgs ++ other_modifier_list solvIonArgs

/-- `Builder.get_filename`: canonical coordinate/topology filename from the
file stem, the requested solvation/ion modifiers, an optional suffix, an
optional sheet number and an optional top/center/bottom tag.  An invalid
`tcb_spec` raises `ValueError`. -/
def get_filename (tmpdir filestem : String) (solvIonArgs : List String)
    (suffix : Option String) (sheetnum : Option ℤ)
    (tcbSpec : Option String) : Except String String :=
  let sheetnumStr : String :=
    match sheetnum with
    | some n => "_" ++ toString n
    | none => ""
  let tcbres : Except String String :=
    match tcbSpec with
    | some t =>
      if t = "T" ∨ t = "C" ∨ t = "B" then Except.ok ("_" ++ t)
      else Except.error "Accepted tcb_spec values are T, C, B."
    | none => Except.ok ""
  match tcbres with
  | Except.error e => Except.error e
  | Except.ok tcbStr =>
    let suffixStr : String :=
      match suffix with
      | some s => "." ++ stripDots s
      | none => ""
    Except.ok (tmpdir ++ "/" ++
      String.intercalate "_"
        ((filestem ++ sheetnumStr ++ tcbStr) :: modifier_arg_list solvIonArgs)
      ++ suffixStr)

/-! ## Builder.select_molecules_outside_clay: no partial residues

Atoms are modelled by their residue number and z coordinate; a structure
handle's full atom table (`residue_group.residues.atoms`) is the `univAtoms`
list, the argument atom group a sublist of it. -/

/-- An atom as seen by the outside-clay selection: residue id and
z coordinate. -/
structure SAtom where
  resid : ℕ
  z : ℚ
deriving DecidableEq

/-- Modelled from the spec: `select_outside_clay_stack` (imported from
`ClayCode.core.lib`, which is absent from the sources) keeps the atoms of a
group lying outside the clay-layer z-bounds extended by a caller-supplied
margin (`extra`). -/
def select_outside_clay_stack (atoms : List SAtom)
    (clayMin clayMax extra : ℚ) : List SAtom :=
  atoms.filter
    (fun a => decide (a.z < clayMin - extra) || decide (clayMax + extra < a.z))

/-- Number of atoms of a group belonging to residue `r`. -/
def residCount (l : List SAtom) (r : ℕ) : ℕ :=
  l.countP (fun a => decide (a.resid = r))

/-- `Builder.select_molecules_outside_clay`: select the atoms outside the
clay z-bounds, then drop every residue group whose selected atom count
differs from the residue's full atom count in the structure. -/
def select_molecules_outside_clay (univAtoms selected : List SAtom)
    (clayMin clayMax extra : ℚ) : List SAtom :=
  (select_outside_clay_stack selected clayMin clayMax extra).filter
    (fun a =>
      decide
        (residCount (select_outside_clay_stack selected clayMin clayMax extra)
            a.resid =
          residCount univAtoms a.resid))

/-! ## Builder.stack_sheets: interlayer ion position roll

From `Builder.stack_sheets` in `assembly.py`: on each interlayer-solvent
copy, `il_ions = il_u_copy.select_atoms("not resname SOL iSL")` and
`il_ions.positions = np.roll(il_ions.positions, 3, axis=0)`.  An atom is
its residue name plus position; assigning to `il_ions.positions` writes the
rolled position rows back onto the ion atoms in order, leaving the solvent
atoms untouched. -/

/-- An interlayer atom: residue name and position. -/
structure IlAtom where
  resname : String
  pos : ℚ × ℚ × ℚ
deriving DecidableEq

/-- The `"not resname SOL iSL"` selection of `Builder.stack_sheets`. -/
def isIlIon (a : IlAtom) : Bool :=
  !(a.resname == "SOL" || a.resname == "iSL")

/-- `np.roll(_, shift, axis=0)` on a list of rows: cyclically shift the rows
forward by `shift` places. -/
def npRoll {α : Type} (shift : ℕ) (l : List α) : List α :=
  if l.length = 0 then l
  else
    l.drop (l.length - shift % l.length) ++
      l.take (l.length - shift % l.length)

/-- Write a list of new positions back onto the ion atoms of a group, in
order, leaving non-ion atoms unchanged (the MDAnalysis
`il_ions.positions = ...` assignment). -/
def assignIonPositions : List IlAtom → List (ℚ × ℚ × ℚ) → List IlAtom
  | [], _ => []
  | a :: rest, ps =>
    if isIlIon a then
      match ps with
      | [] => a :: assignIonPositions rest []
      | p :: pr => { resname := a.resname, pos := p } :: assignIonPositions rest pr
    else a :: assignIonPositions rest ps

/-- The ion-jitter step of `Builder.stack_sheets` applied to one interlayer
copy: the ion atoms' positions are replaced by `np.roll(positions, 3, 0)` of
themselves. -/
def roll_il_ion_positions (atoms : List IlAtom) : List IlAtom :=
  assignIonPositions atoms (npRoll 3 ((atoms.filter isIlIon).map IlAtom.pos))

/-- The spec's wording, for comparison with the code: the ions' positions
cyclically rotated by one residue, i.e. by the number of atoms making up one
ion residue (`atomsPerResidue`, which is 1 for the monatomic interlayer
ions inserted by `Builder.add_il_ions`). -/
def spec_rotate_ions_one_residue (atoms : List IlAtom)
    (atomsPerResidue : ℕ) : List (ℚ × ℚ × ℚ) :=
  npRoll atomsPerResidue ((atoms.filter isIlIon).map IlAtom.pos)

/-! ## Sheet.uc_array: unit-cell multiset

From `Sheet.uc_array` in `assembly.py`:
`sorted(np.repeat(self.uc_ids, self.uc_numbers))`. -/

/-- `Sheet.uc_array`: each unit-cell id replicated by its target count, the
whole sequence sorted. -/
def uc_array (ucIds : List ℤ) (ucNumbers : List ℕ) : List ℤ :=
  List.insertionSort (fun a b => a ≤ b)
    (List.flatten (List.zipWith (fun i n => List.replicate n i) ucIds ucNumbers))

/-! ## Builder.stack_sheets: renaming of the last interlayer copy

From `Builder.stack_sheets` in `assembly.py`: in the loop over
`sheet_id in range(n_sheets)`, each iteration appends one interlayer copy;
only when `sheet_id == n_sheets - 1` are the copy's residue names rewritten
by `re.sub("iSL", "SOL", resname)`. -/

/-- `re.sub("iSL", "SOL", _)` on a character list: replace every
non-overlapping occurrence of `iSL` left to right. -/
def substIsl : List Char → List Char
  | 'i' :: 'S' :: 'L' :: rest => 'S' :: 'O' :: 'L' :: substIsl rest
  | c :: rest => c :: substIsl rest
  | [] => []

/-- `re.sub("iSL", "SOL", _)` on a residue name. -/
def subIslSol (s : String) : String :=
  String.mk (substIsl s.data)

/-- The per-sheet interlayer residue-name lists accumulated by the
`stack_sheets` loop (the resname content of each merged interlayer copy). -/
def stack_il_resnames (nSheets : ℕ) (resnames : List String) :
    List (List String) :=
  (List.range nSheets).foldl
    (fun acc sheetId =>
      acc ++
        [if sheetId = nSheets - 1 then resnames.map subIslSol else resnames])
    []

theorem pyRound_intCast (m : ℤ) : pyRound (m : ℚ) = m := by
  unfold pyRound
  rw [Int.floor_intCast]
  simp

/-- **C1.** For positive `n` and positive sheet dimensions, the height and
count conversions of `Solvent` are mutually inverse:
`get_sheet_solvent_mols (get_solvent_sheet_height n) = n`. -/
theorem solvent_height_mols_round_trip (xDim yDim : ℚ) (n : ℕ)
    (hx : 0 < xDim) (hy : 0 < yDim) (hn : 0 < n) :
    get_sheet_solvent_mols xDim yDim (get_solvent_sheet_height xDim yDim (n : ℤ)) = n := by
  have hA : nAvogadro ≠ 0 := by norm_num [nAvogadro]
  have hd : solv_density ≠ 0 := by norm_num [solv_density]
  have hm : mw_sol ≠ 0 := by norm_num [mw_sol]
  have hx0 : xDim ≠ 0 := ne_of_gt hx
  have hy0 : yDim ≠ 0 := ne_of_gt hy
  have harg :
      (get_solvent_sheet_height xDim yDim (n : ℤ) * nAvogadro * xDim * yDim *
        solv_density) / mw_sol = (n : ℚ) := by
    unfold get_solvent_sheet_height
    field_simp
    ring
  unfold get_sheet_solvent_mols
  rw [harg]
  have : ((n : ℤ) : ℚ) = (n : ℚ) := by push_cast; ring
  rw [← this, pyRound_intCast]

/-- Witness for C1 at `x_dim = y_dim = 1`, `n = 3`. -/
theorem solvent_height_mols_round_trip_witness :
    get_sheet_solvent_mols 1 1 (get_solvent_sheet_height 1 1 (3 : ℤ)) = 3 :=
  solvent_height_mols_round_trip 1 1 3 (by norm_num) (by norm_num) (by norm_num)

theorem nat_le_floor_toNat (increment : ℚ) (h : 0 < increment) (k : ℕ)
    (hk : (k : ℚ) * increment ≤ 5) : k ≤ (⌊(5 : ℚ) / increment⌋).toNat := by
  have h1 : (k : ℚ) ≤ 5 / increment := (le_div_iff₀ h).mpr hk
  have h2 : (k : ℤ) ≤ ⌊(5 : ℚ) / increment⌋ := Int.le_floor.mpr (by push_cast; exact h1)
  omega

theorem solventWriteLoop_isSome (nMols : ℕ) (report : ℕ → ℕ) (increment : ℚ)
    (h : 0 < increment) :
    ∀ fuel k : ℕ,
      (((k : ℚ) * increment ≤ 5 ∧
          (⌊(5 : ℚ) / increment⌋).toNat + 2 ≤ k + fuel) ∨
        (5 < (k : ℚ) * increment ∧ 1 ≤ fuel)) →
      (solventWriteLoop nMols report increment fuel k).isSome = true := by
  intro fuel
  induction fuel with
  | zero =>
    intro k hinv
    rcases hinv with ⟨hk, hb⟩ | ⟨_, h1⟩
    · have := nat_le_floor_toNat increment h k hk
      omega
    · omega
  | succ fuel ih =>
    intro k hinv
    by_cases h5 : 5 < (k : ℚ) * increment
    · simp [solventWriteLoop, h5]
    · have hk : (k : ℚ) * increment ≤ 5 := le_of_not_lt h5
      rcases hinv with ⟨_, hb⟩ | ⟨h5', _⟩
      · by_cases hrep : nMols ≤ report k
        · simp [solventWriteLoop, h5, hrep]
        · have hstep :
              solventWriteLoop nMols report increment (fuel + 1) k =
                solventWriteLoop nMols report increment fuel (k + 1) := by
            simp [solventWriteLoop, h5, hrep]
          rw [hstep]
          apply ih
          by_cases h2 : ((k : ℕ) + 1 : ℚ) * increment ≤ 5
          · left
            constructor
            · exact_mod_cast h2
            · omega
          · right
            constructor
            · push_cast
              exact lt_of_not_le h2
            · have hkk := nat_le_floor_toNat increment h k hk
              omega
      · exact absurd h5' h5

/-- **C2.** The solvation retry loop of `Solvent.write` terminates for every
positive padding increment: each failed attempt adds the fixed increment to
the accumulated padding, the loop aborts with a fatal error as soon as the
padding exceeds 5 angstrom, so starting from zero padding the loop reaches a
decision (success or fatal abort) within `⌊5 / increment⌋ + 2` attempts,
whatever the solvation reports are. -/
theorem solvent_write_terminates (nMols : ℕ) (report : ℕ → ℕ) (increment : ℚ)
    (h : 0 < increment) :
    (solventWriteLoop nMols report increment
      ((⌊(5 : ℚ) / increment⌋).toNat + 2) 0).isSome = true := by
  apply solventWriteLoop_isSome nMols report increment h
  left
  constructor
  · simp
  · omega

/-- Witness for C2: increment 1, a solvate service that always reports 0
molecules; the loop decides within 7 attempts. -/
theorem solvent_write_terminates_witness :
    (solventWriteLoop 1 (fun _ => 0) 1 7 0).isSome = true := by
  have h := solvent_write_terminates 1 (fun _ => 0) 1 (by norm_num)
  have h7 : (⌊(5 : ℚ) / 1⌋).toNat + 2 = 7 := by
    norm_num
    decide
  rw [h7] at h
  exact h

/-- **C8.** Whenever the retry loop of `Solvent.write` returns normally
(result `Except.ok j`, i.e. `write` returns without raising after attempt
`j`), the molecule count reported by that last solvation attempt is at least
the target `n_mols`: `check_solvent_nummols` raises exactly when the parsed
count is strictly smaller, and the loop only exits via `break` when that
check passes. -/
theorem solvent_write_success_count (nMols : ℕ) (report : ℕ → ℕ)
    (increment : ℚ) :
    ∀ fuel k j : ℕ,
      solventWriteLoop nMols report increment fuel k = some (Except.ok j) →
      nMols ≤ report j := by
  intro fuel
  induction fuel with
  | zero => intro k j hj; simp [solventWriteLoop] at hj
  | succ fuel ih =>
    intro k j hj
    by_cases h5 : 5 < (k : ℚ) * increment
    · simp [solventWriteLoop, h5] at hj
    · by_cases hrep : nMols ≤ report k
      · simp [solventWriteLoop, h5, hrep] at hj
        rw [← hj]
        exact hrep
      · have hstep :
            solventWriteLoop nMols report increment (fuel + 1) k =
              solventWriteLoop nMols report increment fuel (k + 1) := by
          simp [solventWriteLoop, h5, hrep]
        rw [hstep] at hj
        exact ih (k + 1) j hj

/-- Witness for C8: target 2, a service reporting 3 molecules on the first
attempt; the loop succeeds at attempt 0 and indeed `2 ≤ 3`. -/
theorem solvent_write_success_count_witness : 2 ≤ (fun _ : ℕ => 3) 0 :=
  solvent_write_success_count 2 (fun _ => 3) 1 1 0 0 (by norm_num [solventWriteLoop])

/-- **C3.** The interlayer-ion insertion loop of `Builder.add_il_ions`
succeeds (no `ValueError`) if and only if, for every species with a nonzero
requested count, the placed count parsed from the insertion report equals
the requested count: an insertion shortfall is never silently tolerated. -/
theorem add_il_ions_ok_iff (insert : String → ℕ → ℕ)
    (ions : List (String × ℕ)) :
    add_il_ions insert ions = Except.ok () ↔
      ∀ p ∈ ions, p.2 ≠ 0 → insert p.1 p.2 = p.2 := by
  induction ions with
  | nil => simp [add_il_ions]
  | cons hd rest ih =>
    obtain ⟨ion, nIons⟩ := hd
    by_cases hz : nIons = 0
    · subst hz
      simp only [add_il_ions, ne_eq, not_true_eq_false, if_neg, ih,
        List.mem_cons, not_false_eq_true]
      constructor
      · intro h p hp
        rcases hp with hp | hp
        · subst hp; simp
        · exact h p hp
      · intro h p hp
        exact h p (Or.inr hp)
    · by_cases hins : insert ion nIons = nIons
      · simp only [add_il_ions, ne_eq, hz, not_false_eq_true, if_pos, hins,
          not_true_eq_false, if_neg, ih, List.mem_cons]
        constructor
        · intro h p hp
          rcases hp with hp | hp
          · subst hp; intro; exact hins
          · exact h p hp
        · intro h p hp
          exact h p (Or.inr hp)
      · simp only [add_il_ions, ne_eq, hz, not_false_eq_true, if_pos, hins,
          if_neg, List.mem_cons]
        constructor
        · intro h; cases h
        · intro h
          exact absurd (h (ion, nIons) (Or.inl rfl) hz) hins

/-- **C4.** Two-run determinism of the seeded shuffles: assigning the same
sheet index through the `Sheet.n_sheet` setter reseeds the generator from
that index alone, so `write_gro`'s two shuffles of `uc_array` agree across
two runs whatever generator states the two runs held before. -/
theorem write_gro_two_run_determinism (R : Type) (init : ℤ → R)
    (step : R → List ℤ → List ℤ × R) (ucArr : List ℤ)
    (s1 s2 : SheetRngState R) (i : ℤ) :
    write_gro_shuffles step ucArr (set_n_sheet init s1 (some i)) =
      write_gro_shuffles step ucArr (set_n_sheet init s2 (some i)) := rfl

theorem filter_mem_congr {l1 l2 knowns : List String}
    (hmem : ∀ s, s ∈ l1 ↔ s ∈ l2) :
    knowns.filter (fun s => decide (s ∈ l1)) =
      knowns.filter (fun s => decide (s ∈ l2)) := by
  apply List.filter_congr
  intro a _
  simp [hmem a]

theorem sorted_dedup_filter_congr {l1 l2 argList : List String}
    (hmem : ∀ s, s ∈ l1 ↔ s ∈ l2) :
    List.insertionSort (fun a b => a ≤ b)
        ((l1.filter (fun s => decide (s ∉ argList))).dedup) =
      List.insertionSort (fun a b => a ≤ b)
        ((l2.filter (fun s => decide (s ∉ argList))).dedup) := by
  have hperm :
      List.Perm ((l1.filter (fun s => decide (s ∉ argList))).dedup)
        ((l2.filter (fun s => decide (s ∉ argList))).dedup) := by
    rw [List.perm_ext_iff_of_nodup (List.nodup_dedup _) (List.nodup_dedup _)]
    intro a
    simp only [List.mem_dedup, List.mem_filter, decide_eq_true_eq]
    rw [hmem a]
  exact List.eq_of_perm_of_sorted
    ((List.perm_insertionSort _ _).trans
      (hperm.trans (List.perm_insertionSort _ _).symm))
    (List.sorted_insertionSort _ _) (List.sorted_insertionSort _ _)

theorem modifier_arg_list_congr {args1 args2 : List String}
    (hmem : ∀ s, s ∈ args1 ↔ s ∈ args2) :
    modifier_arg_list args1 = modifier_arg_list args2 := by
  have hknown : known_modifier_list args1 = known_modifier_list args2 :=
    filter_mem_congr hmem
  unfold modifier_arg_list other_modifier_list
  rw [hknown]
  rw [sorted_dedup_filter_congr hmem]

/-- **C5.** `Builder.get_filename` is invariant under permutation of its
modifier arguments: for every stem, suffix, sheet number and tag, two calls
whose modifier sets are equal return the identical canonical path (known
modifiers are placed first in a fixed order, unknown ones appended in sorted
order). -/
theorem get_filename_modifier_set_invariant (tmpdir filestem : String)
    (args1 args2 : List String) (suffix : Option String)
    (sheetnum : Option ℤ) (tcbSpec : Option String)
    (hmem : ∀ s, s ∈ args1 ↔ s ∈ args2) :
    get_filename tmpdir filestem args1 suffix sheetnum tcbSpec =
      get_filename tmpdir filestem args2 suffix sheetnum tcbSpec := by
  unfold get_filename
  rw [modifier_arg_list_congr hmem]

/-- Witness for C5: the modifier lists `["ions", "solv"]` and
`["solv", "ions"]` yield the same canonical filename. -/
theorem get_filename_modifier_set_invariant_witness :
    get_filename "tmp" "stem" ["ions", "solv"] (some ".gro") none none =
      get_filename "tmp" "stem" ["solv", "ions"] (some ".gro") none none :=
  get_filename_modifier_set_invariant "tmp" "stem" ["ions", "solv"]
    ["solv", "ions"] (some ".gro") none none
    (by
      intro s
      simp only [List.mem_cons, List.not_mem_nil, or_false]
      exact or_comm)

theorem countP_and_not_split {α : Type} (p q : α → Bool) (l : List α) :
    l.countP (fun a => p a && q a) + l.countP (fun a => p a && !q a) =
      l.countP p := by
  induction l with
  | nil => simp
  | cons a l ih =>
    cases hp : p a <;> cases hq : q a <;>
      simp [List.countP_cons, hp, hq] <;> omega

theorem residCount_filter_full (l u : List SAtom) (r : ℕ) :
    residCount
        (l.filter
          (fun a => decide (residCount l a.resid = residCount u a.resid))) r =
      if residCount l r = residCount u r then residCount l r else 0 := by
  unfold residCount
  rw [List.countP_filter]
  by_cases hc :
      l.countP (fun a => decide (a.resid = r)) =
        u.countP (fun a => decide (a.resid = r))
  · rw [if_pos hc]
    apply List.countP_congr
    intro a _
    by_cases har : a.resid = r
    · simp only [har, residCount, hc]
      simp
    · simp [har]
  · rw [if_neg hc]
    rw [List.countP_eq_zero]
    intro a _
    by_cases har : a.resid = r
    · simp only [har, residCount]
      simp [hc]
    · simp [har]

/-- **C6.** `Builder.select_molecules_outside_clay` returns a group with no
partial residues: for every residue, either none of its atoms or all of the
residue's atoms (as counted in the full structure) appear in the result; and
any residue one of whose selected atoms lies inside the clay z-bounds
extended by the margin is excluded from the result entirely. -/
theorem select_molecules_outside_clay_whole_residues
    (univAtoms selected : List SAtom) (clayMin clayMax extra : ℚ)
    (hsub : List.Sublist selected univAtoms) :
    (∀ r : ℕ,
        residCount
            (select_molecules_outside_clay univAtoms selected clayMin clayMax
              extra) r = 0 ∨
          residCount
              (select_molecules_outside_clay univAtoms selected clayMin
                clayMax extra) r =
            residCount univAtoms r) ∧
      ∀ a ∈ selected,
        ¬(a.z < clayMin - extra ∨ clayMax + extra < a.z) →
        residCount
            (select_molecules_outside_clay univAtoms selected clayMin clayMax
              extra) a.resid = 0 := by
  constructor
  · intro r
    unfold select_molecules_outside_clay
    rw [residCount_filter_full]
    by_cases hc :
        residCount (select_outside_clay_stack selected clayMin clayMax extra)
            r =
          residCount univAtoms r
    · right
      rw [if_pos hc]
      exact hc
    · left
      rw [if_neg hc]
  · intro a ha hin
    unfold select_molecules_outside_clay
    rw [residCount_filter_full]
    have hle : residCount selected a.resid ≤ residCount univAtoms a.resid :=
      hsub.countP_le _
    have hsplit := countP_and_not_split
      (fun x => decide (x.resid = a.resid))
      (fun x => decide (x.z < clayMin - extra) || decide (clayMax + extra < x.z))
      selected
    have hpos :
        0 < selected.countP
          (fun x => decide (x.resid = a.resid) &&
            !(decide (x.z < clayMin - extra) ||
              decide (clayMax + extra < x.z))) := by
      rw [List.countP_pos_iff]
      refine ⟨a, ha, ?_⟩
      push_neg at hin
      simp [hin.1, hin.2, not_lt.mpr]
    have hag :
        residCount (select_outside_clay_stack selected clayMin clayMax extra)
            a.resid =
          selected.countP
            (fun x => decide (x.resid = a.resid) &&
              (decide (x.z < clayMin - extra) ||
                decide (clayMax + extra < x.z))) := by
      unfold residCount select_outside_clay_stack
      rw [List.countP_filter]
    have hlt :
        residCount (select_outside_clay_stack selected clayMin clayMax extra)
            a.resid < residCount selected a.resid := by
      rw [hag]
      unfold residCount
      omega
    rw [if_neg (by omega)]

/-- Witness for C6: residue 1 has atoms at z = 0 (outside) and z = 5 (inside
the clay bounds 2..8); it is excluded from the outside selection entirely. -/
theorem select_molecules_outside_clay_witness :
    residCount
        (select_molecules_outside_clay
          [⟨1, 0⟩, ⟨1, 5⟩, ⟨2, 10⟩] [⟨1, 0⟩, ⟨1, 5⟩, ⟨2, 10⟩] 2 8 0) 1 = 0 :=
  (select_molecules_outside_clay_whole_residues
      [⟨1, 0⟩, ⟨1, 5⟩, ⟨2, 10⟩] [⟨1, 0⟩, ⟨1, 5⟩, ⟨2, 10⟩] 2 8 0
      (List.Sublist.refl _)).2
    ⟨1, 5⟩ (by decide) (by push_neg; norm_num)

theorem npRoll_length {α : Type} (shift : ℕ) (l : List α) :
    (npRoll shift l).length = l.length := by
  unfold npRoll
  split
  · rfl
  · simp only [List.length_append, List.length_drop, List.length_take]
    omega

theorem assignIonPositions_spec :
    ∀ (atoms : List IlAtom) (ps : List (ℚ × ℚ × ℚ)),
      ps.length = (atoms.filter isIlIon).length →
      ((assignIonPositions atoms ps).map IlAtom.resname =
          atoms.map IlAtom.resname) ∧
        ((assignIonPositions atoms ps).filter isIlIon).map IlAtom.pos = ps ∧
        ((assignIonPositions atoms ps).filter
            (fun a => !(isIlIon a))).map IlAtom.pos =
          (atoms.filter (fun a => !(isIlIon a))).map IlAtom.pos := by
  intro atoms
  induction atoms with
  | nil =>
    intro ps hps
    simp only [List.filter_nil, List.length_nil, List.length_eq_zero] at hps
    subst hps
    simp [assignIonPositions]
  | cons a rest ih =>
    intro ps hps
    by_cases hIon : isIlIon a
    · cases ps with
      | nil => simp [List.filter_cons, hIon] at hps
      | cons p pr =>
        have hlen : pr.length = (rest.filter isIlIon).length := by
          simp only [List.filter_cons, hIon, if_pos, List.length_cons] at hps
          omega
        obtain ⟨h1, h2, h3⟩ := ih pr hlen
        have hIon2 : isIlIon { resname := a.resname, pos := p } = true := by
          simpa [isIlIon] using hIon
        refine ⟨?_, ?_, ?_⟩
        · simp [assignIonPositions, hIon, h1]
        · simp [assignIonPositions, hIon, List.filter_cons, hIon2, h2]
        · simp [assignIonPositions, hIon, List.filter_cons, hIon2, h3]
    · have hlen : ps.length = (rest.filter isIlIon).length := by
        simpa [List.filter_cons, hIon] using hps
      obtain ⟨h1, h2, h3⟩ := ih ps hlen
      refine ⟨?_, ?_, ?_⟩ <;>
        simp [assignIonPositions, hIon, List.filter_cons, h1, h2, h3]

/-- **C7 (amended).** In `Builder.stack_sheets`, before an interlayer copy
is merged, the interlayer ions' positions are cyclically rotated by THREE
atom rows (`np.roll(positions, 3, axis=0)`) — one residue only when a
residue holds three atoms, hence three residues for the monatomic
interlayer ions — while the residue names and the non-ion atoms' positions
are left unchanged. -/
theorem stack_sheets_ion_roll_three (atoms : List IlAtom) :
    ((roll_il_ion_positions atoms).map IlAtom.resname =
        atoms.map IlAtom.resname) ∧
      (((roll_il_ion_positions atoms).filter isIlIon).map IlAtom.pos =
        npRoll 3 ((atoms.filter isIlIon).map IlAtom.pos)) ∧
      (((roll_il_ion_positions atoms).filter
          (fun a => !(isIlIon a))).map IlAtom.pos =
        (atoms.filter (fun a => !(isIlIon a))).map IlAtom.pos) := by
  unfold roll_il_ion_positions
  apply assignIonPositions_spec
  rw [npRoll_length, List.length_map]

/-- Counterexample to C7 as stated: with five monatomic interlayer ions the
code's `np.roll(positions, 3, axis=0)` rotates the positions by three
residues, not one — the result differs from a one-residue rotation in
either direction. -/
theorem stack_sheets_ion_roll_counterexample :
    ((roll_il_ion_positions
          [⟨"Na", (0, 0, 0)⟩, ⟨"Na", (1, 0, 0)⟩, ⟨"Na", (2, 0, 0)⟩,
            ⟨"Na", (3, 0, 0)⟩, ⟨"Na", (4, 0, 0)⟩]).filter isIlIon).map
        IlAtom.pos ≠
      spec_rotate_ions_one_residue
        [⟨"Na", (0, 0, 0)⟩, ⟨"Na", (1, 0, 0)⟩, ⟨"Na", (2, 0, 0)⟩,
          ⟨"Na", (3, 0, 0)⟩, ⟨"Na", (4, 0, 0)⟩] 1 ∧
    ((roll_il_ion_positions
          [⟨"Na", (0, 0, 0)⟩, ⟨"Na", (1, 0, 0)⟩, ⟨"Na", (2, 0, 0)⟩,
            ⟨"Na", (3, 0, 0)⟩, ⟨"Na", (4, 0, 0)⟩]).filter isIlIon).map
        IlAtom.pos ≠
      npRoll 4
        (([⟨"Na", (0, 0, 0)⟩, ⟨"Na", (1, 0, 0)⟩, ⟨"Na", (2, 0, 0)⟩,
            ⟨"Na", (3, 0, 0)⟩, ⟨"Na", (4, 0, 0)⟩].filter isIlIon).map
          IlAtom.pos) := by
  constructor <;> decide

theorem repeat_flatten_length :
    ∀ (ucIds : List ℤ) (ucNumbers : List ℕ),
      ucIds.length = ucNumbers.length →
      (List.flatten
          (List.zipWith (fun i n => List.replicate n i) ucIds
            ucNumbers)).length = ucNumbers.sum := by
  intro ucIds
  induction ucIds with
  | nil =>
    intro nums h
    cases nums with
    | nil => simp
    | cons n ns => simp at h
  | cons i ids ih =>
    intro nums h
    cases nums with
    | nil => simp at h
    | cons n ns =>
      simp only [List.zipWith_cons_cons, List.flatten_cons, List.length_append,
        List.length_replicate, List.sum_cons]
      have := ih ns (by simpa using h)
      omega

theorem count_repeat_flatten_of_not_mem (x : ℤ) :
    ∀ (ucIds : List ℤ) (ucNumbers : List ℕ), x ∉ ucIds →
      (List.flatten
          (List.zipWith (fun i n => List.replicate n i) ucIds
            ucNumbers)).count x = 0 := by
  intro ucIds
  induction ucIds with
  | nil => intro nums _; simp
  | cons i ids ih =>
    intro nums hx
    cases nums with
    | nil => simp
    | cons n ns =>
      simp only [List.zipWith_cons_cons, List.flatten_cons, List.count_append]
      have hxi : ¬(i = x) := fun h => hx (by simp [h])
      rw [List.count_replicate]
      simp only [beq_iff_eq, hxi, if_neg, not_false_eq_true]
      have := ih ns (fun h => hx (List.mem_cons_of_mem _ h))
      omega

theorem count_repeat_flatten (x : ℤ) (cnt : ℕ) :
    ∀ (ucIds : List ℤ) (ucNumbers : List ℕ), ucIds.Nodup →
      ucIds.length = ucNumbers.length → (x, cnt) ∈ ucIds.zip ucNumbers →
      (List.flatten
          (List.zipWith (fun i n => List.replicate n i) ucIds
            ucNumbers)).count x = cnt := by
  intro ucIds
  induction ucIds with
  | nil => intro nums _ _ hmem; simp at hmem
  | cons i ids ih =>
    intro nums hnodup hlen hmem
    cases nums with
    | nil => simp at hlen
    | cons n ns =>
      simp only [List.zip_cons_cons, List.mem_cons, Prod.mk.injEq] at hmem
      simp only [List.zipWith_cons_cons, List.flatten_cons, List.count_append]
      rcases hmem with ⟨hx, hc⟩ | hmem
      · subst hx
        subst hc
        rw [List.count_replicate]
        simp only [beq_self_eq_true, if_pos]
        have hnotmem : x ∉ ids := (List.nodup_cons.mp hnodup).1
        rw [count_repeat_flatten_of_not_mem x ids ns hnotmem]
        omega
      · have hx_mem : x ∈ ids := (List.of_mem_zip hmem).1
        have hxi : ¬(i = x) := fun h => by
          exact (List.nodup_cons.mp hnodup).1 (h ▸ hx_mem)
        rw [List.count_replicate]
        simp only [beq_iff_eq, hxi, if_neg, not_false_eq_true]
        have := ih ns (List.nodup_cons.mp hnodup).2 (by simpa using hlen) hmem
        omega

/-- **C9.** For a sheet spec whose per-id counts sum to
`x_cells * y_cells` (distinct ids, one count per id), `Sheet.uc_array` is a
sorted sequence of that length in which each unit-cell id occurs exactly its
target count of times, and every shuffle of it performed in `write_gro` —
being a permutation — preserves the length and the per-id counts. -/
theorem uc_array_props (ucIds : List ℤ) (ucNumbers : List ℕ)
    (xCells yCells : ℕ) (hlen : ucIds.length = ucNumbers.length)
    (hnodup : ucIds.Nodup) (hsum : ucNumbers.sum = xCells * yCells) :
    (uc_array ucIds ucNumbers).length = xCells * yCells ∧
      List.Sorted (fun a b : ℤ => a ≤ b) (uc_array ucIds ucNumbers) ∧
      (∀ p ∈ ucIds.zip ucNumbers, (uc_array ucIds ucNumbers).count p.1 = p.2) ∧
      ∀ shuffled : List ℤ,
        List.Perm shuffled (uc_array ucIds ucNumbers) →
        shuffled.length = xCells * yCells ∧
          ∀ p ∈ ucIds.zip ucNumbers, shuffled.count p.1 = p.2 := by
  have hperm :
      List.Perm (uc_array ucIds ucNumbers)
        (List.flatten
          (List.zipWith (fun i n => List.replicate n i) ucIds ucNumbers)) :=
    List.perm_insertionSort _ _
  have hlength : (uc_array ucIds ucNumbers).length = xCells * yCells := by
    rw [hperm.length_eq, repeat_flatten_length ucIds ucNumbers hlen, hsum]
  have hcount :
      ∀ p ∈ ucIds.zip ucNumbers, (uc_array ucIds ucNumbers).count p.1 = p.2 := by
    intro p hp
    rw [hperm.count_eq]
    exact count_repeat_flatten p.1 p.2 ucIds ucNumbers hnodup hlen hp
  refine ⟨hlength, List.sorted_insertionSort _ _, hcount, ?_⟩
  intro shuffled hshuf
  constructor
  · rw [hshuf.length_eq, hlength]
  · intro p hp
    rw [hshuf.count_eq]
    exact hcount p hp

/-- Witness for C9: the spec's 2×2 scenario with ids `{1, 2}` and counts
`{3, 1}`. -/
theorem uc_array_props_witness :
    (uc_array [1, 2] [3, 1]).length = 2 * 2 ∧
      (uc_array [1, 2] [3, 1]).count 1 = 3 := by
  have h := uc_array_props [1, 2] [3, 1] 2 2 (by decide) (by decide) (by decide)
  exact ⟨h.1, h.2.2.1 (1, 3) (by decide)⟩

theorem foldl_append_singleton_map {α : Type} (f : ℕ → α) :
    ∀ (l : List ℕ) (acc : List α),
      l.foldl (fun a x => a ++ [f x]) acc = acc ++ l.map f := by
  intro l
  induction l with
  | nil => intro acc; simp
  | cons x xs ih => intro acc; simp [List.foldl_cons, ih]

theorem stack_il_resnames_eq_map (nSheets : ℕ) (resnames : List String) :
    stack_il_resnames nSheets resnames =
      (List.range nSheets).map
        (fun sheetId =>
          if sheetId = nSheets - 1 then resnames.map subIslSol
          else resnames) := by
  unfold stack_il_resnames
  rw [foldl_append_singleton_map]
  simp

/-- **C10.** In `Builder.stack_sheets` with interlayer solvent present,
exactly the last sheet's interlayer copy (index `n_sheets - 1`) has every
occurrence of `iSL` in its residue names rewritten to `SOL` before merging;
all other sheets' interlayer residue names are left unchanged. -/
theorem stack_sheets_renames_last_interlayer_only (nSheets : ℕ)
    (resnames : List String) (i : ℕ) (hi : i < nSheets) :
    (stack_il_resnames nSheets resnames).getD i [] =
      if i = nSheets - 1 then resnames.map subIslSol else resnames := by
  rw [stack_il_resnames_eq_map, List.getD_eq_getElem?_getD, List.getElem?_map,
    List.getElem?_range hi]
  rfl

/-- Witness for C10: three sheets, interlayer residue names
`["iSL", "Ion"]`; the copy at index 2 (the last) is renamed to
`["SOL", "Ion"]`. -/
theorem stack_sheets_renames_last_interlayer_only_witness :
    (stack_il_resnames 3 ["iSL", "Ion"]).getD 2 [] = ["SOL", "Ion"] := by
  have h := stack_sheets_renames_last_interlayer_only 3 ["iSL", "Ion"] 2
    (by decide)
  rw [h]
  decide

end ClayCodeProof
